import Mathlib

/-!
# Verification of the Abscissa component-lifecycle and configuration core

A shallow embedding of the component registry (registration, dependency
resolution, boot/shutdown ordering), the global configuration cell, and the
error taxonomy of the `abscissa` crate.  The crate root (`src/lib.rs`) only
declares the `application`, `config` and `error` modules; their bodies are not
part of the visible source, so the definitions below are modelled from the
specification's description of those modules (each such definition says so in
its doc comment).  The configuration-storage discipline itself *is* visible in
the crate root documentation: configuration is "a [RwLock] on a
[lazy_static]", i.e. one process-wide global cell.
-/

namespace Abscissa

/-- Modelled from the spec: `ComponentId` is "an opaque, unique identifier
(name string or equivalent) for a component". -/
abbrev ComponentId := String

/-- Modelled from the spec: the per-component lifecycle state
`{Registered, Initializing, Ready, ShuttingDown, Stopped, Failed}`. -/
inductive ComponentState where
  | registered
  | initializing
  | ready
  | shuttingDown
  | stopped
  | failed
deriving DecidableEq, Repr

/-- Modelled from the spec: a component is "a capability unit with a name,
a declared set of dependency names" (lifecycle hooks are supplied separately
to `boot`/`shutdown` as success oracles). -/
structure Component where
  id : ComponentId
  dependencies : List ComponentId
deriving DecidableEq, Repr

/-- Modelled from the spec: the `Config` error sub-cases
(load/parse/validation failures, not-initialized access). -/
inductive ConfigError where
  | notInitialized
  | loadFailed
deriving DecidableEq, Repr

/-- Modelled from the spec: the `Component` error sub-cases (registration,
cycle, unknown dependency, init, reload, shutdown failures — "each sub-case
distinguishable"). -/
inductive ComponentError where
  | duplicateId (id : ComponentId)
  | cyclicDependency
  | unknownDependency (id : ComponentId)
  | initFailed (id : ComponentId)
  | reloadFailed (id : ComponentId)
  | shutdownFailed (id : ComponentId)
deriving DecidableEq, Repr

/-- Modelled from the spec: `FrameworkError` is a "tagged variant over
{Config, Component, Io, Parse, Other}". -/
inductive FrameworkErrorKind where
  | config (e : ConfigError)
  | component (e : ComponentError)
  | io
  | parse
  | other
deriving DecidableEq, Repr

/-! ## Global configuration cell

Modelled from the spec (§4.1) and the crate-root docs: a lazily initialized
holder of one typed configuration value.  The cell content is `none` before
the first `set` and `some v` afterwards; replacement is wholesale. -/

namespace GlobalConfig

/-- Modelled from the spec: `set(new: T)` "atomically replaces the held value
as a unit" and "succeeds unconditionally". -/
def set (v : α) (_cell : Option α) : Option α :=
  some v

/-- Modelled from the spec: `get()` returns a read-only view of the held
value, and "fails with `Config::NotInitialized` if called before the first
`set`". -/
def get : Option α → Except FrameworkErrorKind α
  | none => .error (.config .notInitialized)
  | some v => .ok v

/-- An access trace against the cell: `set` operations replace the value,
`get` operations observe it. -/
inductive Op (α : Type) where
  | setOp (v : α)
  | getOp
deriving DecidableEq, Repr

/-- Run a trace of operations over the cell: `set` replaces the content,
`get` leaves it unchanged. -/
def runOps : List (Op α) → Option α → Option α
  | [], cell => cell
  | .setOp v :: rest, cell => runOps rest (set v cell)
  | .getOp :: rest, cell => runOps rest cell

end GlobalConfig

/-! ## Component registry: registration -/

/-- Modelled from the spec: `register(component)` "adds a component under its
ComponentId; fails with `Component::DuplicateId` if the id already exists".
Returns the (possibly unchanged) registry together with the outcome, so that
the "registry is unchanged afterward" part of the contract is expressible. -/
def register (r : List Component) (c : Component) :
    List Component × Except FrameworkErrorKind Unit :=
  if r.any (fun c0 => c0.id == c.id) then
    (r, .error (.component (.duplicateId c.id)))
  else
    (r ++ [c], .ok ())

/-! ## Component registry: dependency resolution -/

/-- Whether the id `d` names a registered component of `r`. -/
def idRegistered (r : List Component) (d : ComponentId) : Bool :=
  r.any (fun c => c.id == d)

/-- Whether every declared dependency of `c` is already in the emitted
prefix `acc` of the boot order. -/
def depsSatisfied (c : Component) (acc : List ComponentId) : Bool :=
  c.dependencies.all (fun d => acc.contains d)

/-- The next component to emit: the registration-earliest component not yet
emitted whose declared dependencies are all already emitted ("among
components with no remaining unsatisfied dependency, order by registration
order"). -/
def nextReady (r : List Component) (acc : List ComponentId) : Option Component :=
  r.find? (fun c => !acc.contains c.id && depsSatisfied c acc)

/-- Whether every registered component has already been emitted into `acc`. -/
def allEmitted (r : List Component) (acc : List ComponentId) : Bool :=
  r.all (fun c => acc.contains c.id)

/-- Modelled from the spec: the loop of the topological sort.  Repeatedly
emit the registration-earliest ready component; when no component is ready
but some remain, fail with `Component::CyclicDependency`.  `fuel` bounds the
number of rounds (each round emits one fresh id, so `r.length` rounds
always suffice). -/
def resolveAux (r : List Component) :
    Nat → List ComponentId → Except FrameworkErrorKind (List ComponentId)
  | 0, acc =>
    if allEmitted r acc then .ok acc
    else .error (.component .cyclicDependency)
  | fuel + 1, acc =>
    if allEmitted r acc then .ok acc
    else
      match nextReady r acc with
      | some c => resolveAux r fuel (acc ++ [c.id])
      | none => .error (.component .cyclicDependency)

/-- Modelled from the spec: `resolve_boot_order()` "computes a topological
ordering of all registered components such that every component appears
after all of its dependencies", failing with `Component::UnknownDependency`
if a component declares a dependency on an unregistered id and with
`Component::CyclicDependency` if no valid ordering exists. -/
def resolve_boot_order (r : List Component) :
    Except FrameworkErrorKind (List ComponentId) :=
  match r.find? (fun c => !c.dependencies.all (idRegistered r)) with
  | some c => .error (.component (.unknownDependency c.id))
  | none => resolveAux r r.length []

/-! ## Boot -/

/-- Pointwise update of a component-state assignment. -/
def updateState (st : ComponentId → ComponentState) (i : ComponentId)
    (s : ComponentState) : ComponentId → ComponentState :=
  fun j => if j = i then s else st j

/-- Every component starts out merely registered. -/
def initialStates : ComponentId → ComponentState :=
  fun _ => .registered

/-- The outcome of a boot attempt: the final lifecycle state of every
component, the list of components that reached `Ready` (in boot order), and
the overall result. -/
structure BootResult where
  states : ComponentId → ComponentState
  booted : List ComponentId
  result : Except FrameworkErrorKind Unit

/-- Modelled from the spec: boot walks the resolved order and invokes each
component's `init` hook (represented by the success oracle `initOk`); on
success the component becomes `Ready`, on failure it becomes `Failed` and
boot stops fail-fast with `Component::InitFailed`, leaving the remaining
components untouched ("their state remains `Registered`"). -/
def bootComponents (initOk : ComponentId → Bool) :
    List ComponentId → (ComponentId → ComponentState) → BootResult
  | [], st => ⟨st, [], .ok ()⟩
  | a :: rest, st =>
    if initOk a then
      let res := bootComponents initOk rest (updateState st a .ready)
      ⟨res.states, a :: res.booted, res.result⟩
    else
      ⟨updateState st a .failed, [], .error (.component (.initFailed a))⟩

/-- Modelled from the spec: `boot` "executes `resolve_boot_order`, then for
each component in order invokes its `init` hook"; a resolution failure
aborts boot before any hook runs. -/
def boot (r : List Component) (initOk : ComponentId → Bool) : BootResult :=
  match resolve_boot_order r with
  | .error e => ⟨initialStates, [], .error e⟩
  | .ok order => bootComponents initOk order initialStates

/-! ## Shutdown -/

/-- Modelled from the spec: walk a list of components invoking each one's
`shutdown` hook (represented by the success oracle `shutdownOk`); a failing
hook is recorded as a `Component::ShutdownFailed` error but does not stop
the walk.  Returns the components actually invoked, in invocation order,
together with the accumulated errors. -/
def shutdownRun (shutdownOk : ComponentId → Bool) :
    List ComponentId → List ComponentId × List FrameworkErrorKind
  | [] => ([], [])
  | a :: rest =>
    let tail := shutdownRun shutdownOk rest
    (a :: tail.1,
     (if shutdownOk a then [] else [.component (.shutdownFailed a)]) ++ tail.2)

/-- Modelled from the spec: `shutdown()` "invokes `shutdown` hooks in
strictly reverse boot order, best-effort". -/
def shutdown (bootOrder : List ComponentId) (shutdownOk : ComponentId → Bool) :
    List ComponentId × List FrameworkErrorKind :=
  shutdownRun shutdownOk bootOrder.reverse

/-! ## The dependency relation -/

/-- `dependsOn r a b`: some registered component with id `a` declares a
dependency on id `b`. -/
def dependsOn (r : List Component) (a b : ComponentId) : Prop :=
  ∃ c ∈ r, c.id = a ∧ b ∈ c.dependencies

/-- The dependency relation contains a (directed) cycle. -/
def HasCycle (r : List Component) : Prop :=
  ∃ a, Relation.TransGen (dependsOn r) a a

/-- Every declared dependency names a registered component (the spec's
data-model invariant on `Component.dependencies`). -/
def WellFormed (r : List Component) : Bool :=
  r.all (fun c => c.dependencies.all (idRegistered r))

/-! ## Process-wide configuration storage (from the crate-root docs)

The crate root documents the configuration feature as "declarative global
configuration support using a [RwLock] on a [lazy_static] … global structures
which can be dynamically updated at runtime": the cell is a process-wide
static, one per configuration type, not a value owned by an `Application`. -/

/-- Modelled from the source crate docs (src/lib.rs, configuration feature):
the single process-wide configuration cell (`lazy_static`) for a
configuration type. -/
structure ProcessConfig (α : Type) where
  cell : Option α
deriving DecidableEq

/-- Modelled from the source crate docs: a handle to an Application living
in the process.  It owns no configuration cell of its own; configuration
lives in the process-wide static. -/
structure ApplicationHandle where
  appId : Nat
deriving DecidableEq

/-- A `set` issued through an Application handle writes the process-wide
cell (the handle plays no role in where the value is stored). -/
def applicationSet (p : ProcessConfig α) (_app : ApplicationHandle) (v : α) :
    ProcessConfig α :=
  ⟨GlobalConfig.set v p.cell⟩

/-- A `get` issued through an Application handle reads the process-wide
cell. -/
def applicationGet (p : ProcessConfig α) (_app : ApplicationHandle) :
    Except FrameworkErrorKind α :=
  GlobalConfig.get p.cell

/-! ## Theorems: the global configuration cell (C4, C5) -/

/-- A trace consisting only of reads leaves the cell contents untouched. -/
theorem runOps_getOnly (ops : List (GlobalConfig.Op α)) (cell : Option α)
    (h : ∀ op ∈ ops, op = GlobalConfig.Op.getOp) :
    GlobalConfig.runOps ops cell = cell := by
  induction ops with
  | nil => rfl
  | cons op rest ih =>
    have hop := h op (List.mem_cons_self op rest)
    subst hop
    exact ih (fun op hm => h op (List.mem_cons_of_mem _ hm))

/-- C4: after `set(v)` on the Global Configuration Cell, every subsequent
`get()` (issued before the next `set`, i.e. across any trace of read-only
operations) returns a value equal to `v`. -/
theorem c4_get_after_set (v : α) (cell : Option α)
    (ops : List (GlobalConfig.Op α))
    (h : ∀ op ∈ ops, op = GlobalConfig.Op.getOp) :
    GlobalConfig.get (GlobalConfig.runOps ops (GlobalConfig.set v cell)) =
      Except.ok v := by
  rw [runOps_getOnly ops _ h]
  rfl

/-- Witness for C4 at a concrete trace. -/
theorem c4_get_after_set_witness :
    GlobalConfig.get
        (GlobalConfig.runOps [GlobalConfig.Op.getOp, GlobalConfig.Op.getOp]
          (GlobalConfig.set 7 (some 3))) = Except.ok 7 :=
  c4_get_after_set 7 (some 3) [GlobalConfig.Op.getOp, GlobalConfig.Op.getOp]
    (by decide)

/-- C5: every `get()` issued before the first `set()` (i.e. after any
read-only trace from the uninitialized cell) fails with
`Config::NotInitialized`; it returns an error value rather than aborting. -/
theorem c5_get_before_set (ops : List (GlobalConfig.Op α))
    (h : ∀ op ∈ ops, op = GlobalConfig.Op.getOp) :
    GlobalConfig.get (GlobalConfig.runOps ops (none : Option α)) =
      Except.error (FrameworkErrorKind.config ConfigError.notInitialized) := by
  rw [runOps_getOnly ops _ h]
  rfl

/-- Witness for C5 at a concrete trace. -/
theorem c5_get_before_set_witness :
    GlobalConfig.get (GlobalConfig.runOps [GlobalConfig.Op.getOp]
        (none : Option Nat)) =
      Except.error (FrameworkErrorKind.config ConfigError.notInitialized) :=
  c5_get_before_set [GlobalConfig.Op.getOp] (by decide)

/-! ## Theorems: registration (C7) -/

/-- C7: registering a component whose id collides with an
already-registered component fails with `Component::DuplicateId` and leaves
the registry exactly as it was. -/
theorem c7_register_duplicate (r : List Component) (c : Component)
    (h : ∃ c' ∈ r, c'.id = c.id) :
    register r c =
      (r, Except.error (FrameworkErrorKind.component
        (ComponentError.duplicateId c.id))) := by
  obtain ⟨c', hc', hid⟩ := h
  have hany : r.any (fun c0 => c0.id == c.id) = true := by
    rw [List.any_eq_true]
    exact ⟨c', hc', by simp [hid]⟩
  simp [register, hany]

/-- Witness for C7 at a concrete registry. -/
theorem c7_register_duplicate_witness :
    (∃ c' ∈ [Component.mk "net" []], c'.id = (Component.mk "net" ["tls"]).id) ∧
      register [Component.mk "net" []] (Component.mk "net" ["tls"]) =
        ([Component.mk "net" []], Except.error (FrameworkErrorKind.component
          (ComponentError.duplicateId "net"))) :=
  ⟨⟨Component.mk "net" [], by decide⟩,
    c7_register_duplicate _ _ ⟨Component.mk "net" [], by decide⟩⟩

/-! ## Theorems: shutdown (C8) -/

/-- Every listed component is invoked, in list order, regardless of hook
failures. -/
theorem shutdownRun_fst (shutdownOk : ComponentId → Bool)
    (l : List ComponentId) : (shutdownRun shutdownOk l).1 = l := by
  induction l with
  | nil => rfl
  | cons a rest ih => simp [shutdownRun, ih]

/-- The accumulated errors are exactly one `Component::ShutdownFailed` per
failing hook, in invocation order. -/
theorem shutdownRun_snd (shutdownOk : ComponentId → Bool)
    (l : List ComponentId) :
    (shutdownRun shutdownOk l).2 =
      (l.filter (fun a => !shutdownOk a)).map
        (fun a => FrameworkErrorKind.component
          (ComponentError.shutdownFailed a)) := by
  induction l with
  | nil => rfl
  | cons a rest ih =>
    by_cases hok : shutdownOk a = true <;>
      simp [shutdownRun, ih, List.filter_cons, hok]

/-- C8: `shutdown()` invokes each component's shutdown hook in exactly the
reverse of the recorded boot order; a failing hook does not prevent the
remaining hooks from being invoked (every boot-order component is invoked),
and all failures are accumulated and reported after every hook has been
attempted. -/
theorem c8_shutdown_reverse_best_effort (bootOrder : List ComponentId)
    (shutdownOk : ComponentId → Bool) :
    (shutdown bootOrder shutdownOk).1 = bootOrder.reverse ∧
      (∀ a ∈ bootOrder, a ∈ (shutdown bootOrder shutdownOk).1) ∧
      (shutdown bootOrder shutdownOk).2 =
        (bootOrder.reverse.filter (fun a => !shutdownOk a)).map
          (fun a => FrameworkErrorKind.component
            (ComponentError.shutdownFailed a)) := by
  refine ⟨shutdownRun_fst _ _, ?_, shutdownRun_snd _ _⟩
  intro a ha
  show a ∈ (shutdownRun shutdownOk bootOrder.reverse).1
  rw [shutdownRun_fst]
  exact List.mem_reverse.mpr ha

/-! ## Topological-order predicates on resolver output -/

/-- `order` respects the dependency relation: at every split point, the
component placed there has all of its declared dependencies inside the
preceding prefix. -/
def TopoSorted (r : List Component) (order : List ComponentId) : Prop :=
  ∀ l1 a l2, order = l1 ++ a :: l2 →
    ∀ c ∈ r, c.id = a → ∀ d ∈ c.dependencies, d ∈ l1

/-- `order` respects the registration-order tie-break: at every split point,
the id placed there belongs to a registered component that is not yet in the
prefix, whose dependencies are satisfied by the prefix, and every component
registered *earlier* is either already in the prefix or not yet ready. -/
def RegOrderTieBreak (r : List Component) (order : List ComponentId) : Prop :=
  ∀ l1 a l2, order = l1 ++ a :: l2 →
    ∃ c r1 r2, r = r1 ++ c :: r2 ∧ c.id = a ∧
      l1.contains c.id = false ∧ depsSatisfied c l1 = true ∧
      ∀ c' ∈ r1, l1.contains c'.id = true ∨ depsSatisfied c' l1 = false

/-- Boolean membership on id lists agrees with propositional membership. -/
theorem contains_true_iff (l : List ComponentId) (a : ComponentId) :
    l.contains a = true ↔ a ∈ l := by
  simp

/-- Boolean non-membership on id lists agrees with propositional
non-membership. -/
theorem contains_false_iff (l : List ComponentId) (a : ComponentId) :
    l.contains a = false ↔ a ∉ l := by
  simp

/-- Negated boolean membership on id lists agrees with propositional
non-membership. -/
theorem not_contains_eq_true_iff (l : List ComponentId) (a : ComponentId) :
    (!l.contains a) = true ↔ a ∉ l := by
  simp

/-- In a registry with no duplicate ids, the id determines the component. -/
theorem eq_of_id_eq {r : List Component}
    (hnd : (r.map Component.id).Nodup) {c c' : Component}
    (hc : c ∈ r) (hc' : c' ∈ r) (h : c.id = c'.id) : c = c' :=
  List.inj_on_of_nodup_map hnd hc hc' h

/-- Splitting a list of the form `acc ++ [b]` at an element: either the
split point lies inside `acc`, or it is the final element. -/
theorem split_concat_cases (acc l1 l2 : List ComponentId) (a b : ComponentId)
    (h : acc ++ [b] = l1 ++ a :: l2) :
    (∃ l2', acc = l1 ++ a :: l2') ∨ (l1 = acc ∧ a = b ∧ l2 = []) := by
  rcases List.append_eq_append_iff.mp h with ⟨as, h1, h2⟩ | ⟨cs, h1, h2⟩
  · cases as with
    | nil =>
      right
      refine ⟨by simpa using h1, ?_, ?_⟩
      · simpa using (List.cons.injEq b [] a l2).mp (by simpa using h2) |>.1 |>.symm
      · simpa using (List.cons.injEq b [] a l2).mp (by simpa using h2) |>.2 |>.symm
    | cons x xs =>
      exfalso
      have : ([b] : List ComponentId).length = (x :: (xs ++ a :: l2)).length := by
        rw [h2]; simp
      simp at this
  · cases cs with
    | nil =>
      right
      have h2' : a = b ∧ l2 = [] := by
        simpa using h2
      exact ⟨by simpa using h1.symm, h2'.1, h2'.2⟩
    | cons x xs =>
      left
      have hax : a = x ∧ l2 = xs ++ [b] := by
        simpa using h2
      exact ⟨xs, by rw [h1, hax.1]⟩

/-- Invariant preservation along the resolver loop: starting from a prefix
`acc` drawn without repetition from the registered ids and respecting the
tie-break discipline, a successful run ends in a full, duplicate-free,
tie-break-respecting order. -/
theorem resolveAux_ok_props (r : List Component) :
    ∀ (fuel : Nat) (acc order : List ComponentId),
      resolveAux r fuel acc = Except.ok order →
      (∀ a ∈ acc, ∃ c ∈ r, c.id = a) → acc.Nodup → RegOrderTieBreak r acc →
      (∀ a ∈ order, ∃ c ∈ r, c.id = a) ∧ order.Nodup ∧
        RegOrderTieBreak r order ∧ allEmitted r order = true := by
  intro fuel
  induction fuel with
  | zero =>
    intro acc order h hmem hnd htb
    unfold resolveAux at h
    by_cases hall : allEmitted r acc = true
    · rw [if_pos hall] at h
      cases h
      exact ⟨hmem, hnd, htb, hall⟩
    · rw [if_neg hall] at h
      cases h
  | succ fuel ih =>
    intro acc order h hmem hnd htb
    unfold resolveAux at h
    by_cases hall : allEmitted r acc = true
    · rw [if_pos hall] at h
      cases h
      exact ⟨hmem, hnd, htb, hall⟩
    · rw [if_neg hall] at h
      cases hnr : nextReady r acc with
      | none => rw [hnr] at h; cases h
      | some c =>
        rw [hnr] at h
        have hfind := hnr
        unfold nextReady at hfind
        obtain ⟨hpred, r1, r2, hr, hfirst⟩ := List.find?_eq_some.mp hfind
        have hcr : c ∈ r := List.mem_of_find?_eq_some hfind
        rw [Bool.and_eq_true] at hpred
        obtain ⟨hnotc, hdeps⟩ := hpred
        have hcontains : acc.contains c.id = false := by
          simpa using hnotc
        have hnotin : c.id ∉ acc := by
          intro hmemc
          rw [← contains_true_iff] at hmemc
          rw [hcontains] at hmemc
          cases hmemc
        refine ih (acc ++ [c.id]) order h ?_ ?_ ?_
        · intro a ha
          rcases List.mem_append.mp ha with ha | ha
          · exact hmem a ha
          · have haid : a = c.id := by simpa using ha
            exact ⟨c, hcr, haid.symm⟩
        · rw [List.nodup_append]
          refine ⟨hnd, by simp, ?_⟩
          intro a ha hb
          rw [List.mem_singleton] at hb
          exact hnotin (hb ▸ ha)
        · intro l1 a l2 hsplit
          rcases split_concat_cases acc l1 l2 a c.id hsplit with
            ⟨l2', hin⟩ | ⟨hl1, hab, _⟩
          · exact htb l1 a l2' hin
          · subst hl1
            subst hab
            refine ⟨c, r1, r2, hr, rfl, hcontains, hdeps, ?_⟩
            intro c' hc'
            have hor : c'.id ∈ l1 ∨ depsSatisfied c' l1 = false := by
              simpa using hfirst c' hc'
            rcases hor with hx | hx
            · left
              exact (contains_true_iff _ _).mpr hx
            · right
              exact hx

/-- A successful `resolve_boot_order` emits each registered id, emits only
registered ids, emits no duplicates, and respects the registration-order
tie-break. -/
theorem resolve_boot_order_ok_props (r : List Component)
    (order : List ComponentId)
    (h : resolve_boot_order r = Except.ok order) :
    (∀ a ∈ order, ∃ c ∈ r, c.id = a) ∧ order.Nodup ∧
      RegOrderTieBreak r order ∧ (∀ c ∈ r, c.id ∈ order) := by
  unfold resolve_boot_order at h
  cases hf : r.find? (fun c => !c.dependencies.all (idRegistered r)) with
  | some c => rw [hf] at h; cases h
  | none =>
    rw [hf] at h
    have htb0 : RegOrderTieBreak r [] := by
      intro l1 a l2 hsplit
      simp at hsplit
    obtain ⟨h1, h2, h3, h4⟩ :=
      resolveAux_ok_props r r.length [] order h (by simp) List.nodup_nil htb0
    refine ⟨h1, h2, h3, fun c hc => ?_⟩
    have := List.all_eq_true.mp h4 c hc
    exact (contains_true_iff _ _).mp this

/-- With no duplicate ids, the tie-break discipline forces the topological
property: every component is placed after all of its dependencies. -/
theorem topoSorted_of_tieBreak {r : List Component} {order : List ComponentId}
    (hnd : (r.map Component.id).Nodup)
    (htb : RegOrderTieBreak r order) : TopoSorted r order := by
  intro l1 a l2 hsplit c hc hid
  obtain ⟨c0, r1, r2, hr, hid0, _, hdeps, _⟩ := htb l1 a l2 hsplit
  have hc0r : c0 ∈ r := by rw [hr]; exact List.mem_append_right r1 (List.mem_cons_self c0 r2)
  have : c = c0 := eq_of_id_eq hnd hc hc0r (by rw [hid, hid0])
  subst this
  intro d hd
  have := List.all_eq_true.mp hdeps d hd
  exact (contains_true_iff _ _).mp this

/-- A finite nonempty set in which every element has an `R`-successor inside
the set contains an `R`-cycle. -/
theorem cycle_of_all_successors {α : Type} [DecidableEq α] (R : α → α → Prop)
    (t : Finset α) (hne : t.Nonempty) (hsucc : ∀ a ∈ t, ∃ b ∈ t, R a b) :
    ∃ a, Relation.TransGen R a a := by
  classical
  let g : α → α := fun a => if h : a ∈ t then (hsucc a h).choose else a
  have hg : ∀ a ∈ t, g a ∈ t ∧ R a (g a) := by
    intro a ha
    have hspec := (hsucc a ha).choose_spec
    simp only [g, dif_pos ha]
    exact ⟨hspec.1, hspec.2⟩
  obtain ⟨a0, ha0⟩ := hne
  let seq : Nat → α := fun k => g^[k] a0
  have hseq : ∀ k, seq k ∈ t := by
    intro k
    induction k with
    | zero => exact ha0
    | succ k ih =>
      have := (hg (seq k) ih).1
      simpa [seq, Function.iterate_succ_apply'] using this
  have hstep : ∀ k, R (seq k) (seq (k + 1)) := by
    intro k
    have := (hg (seq k) (hseq k)).2
    simpa [seq, Function.iterate_succ_apply'] using this
  have hchain : ∀ m k, Relation.TransGen R (seq m) (seq (m + (k + 1))) := by
    intro m k
    induction k with
    | zero => exact Relation.TransGen.single (hstep m)
    | succ k ih => exact Relation.TransGen.tail ih (hstep (m + (k + 1)))
  obtain ⟨i, -, j, -, hne', heq⟩ :=
    Finset.exists_ne_map_eq_of_card_lt_of_maps_to
      (show t.card < (Finset.univ : Finset (Fin (t.card + 1))).card by simp)
      (fun (k : Fin (t.card + 1)) _ => hseq k.val)
  have key : ∀ (m n : Nat), m < n → seq m = seq n →
      ∃ a, Relation.TransGen R a a := by
    intro m n hmn he
    refine ⟨seq m, ?_⟩
    have h1 : Relation.TransGen R (seq m) (seq (m + ((n - m - 1) + 1))) :=
      hchain m (n - m - 1)
    have h2 : m + ((n - m - 1) + 1) = n := by omega
    rw [h2] at h1
    rw [← he] at h1
    exact h1
  rcases lt_or_gt_of_ne hne' with hij | hij
  · exact key i.val j.val hij heq
  · exact key j.val i.val hij heq.symm

/-- If some component is still unemitted but no component is ready (every
unemitted component has an unemitted dependency), the dependency relation
has a cycle. -/
theorem cycle_of_stuck (r : List Component) (acc : List ComponentId)
    (hwf : WellFormed r = true)
    (hne : ∃ c ∈ r, acc.contains c.id = false)
    (hstuck : ∀ c ∈ r, acc.contains c.id = true ∨ depsSatisfied c acc = false) :
    HasCycle r := by
  classical
  let pend : Finset ComponentId :=
    ((r.filter (fun c => !acc.contains c.id)).map Component.id).toFinset
  have hpend_mem : ∀ a, a ∈ pend ↔
      ∃ c ∈ r, c.id = a ∧ acc.contains c.id = false := by
    intro a
    constructor
    · intro ha
      rw [List.mem_toFinset, List.mem_map] at ha
      obtain ⟨c, hc, hca⟩ := ha
      rw [List.mem_filter] at hc
      exact ⟨c, hc.1, hca, by simpa using hc.2⟩
    · intro ⟨c, hc, hca, hcon⟩
      rw [List.mem_toFinset, List.mem_map]
      exact ⟨c, List.mem_filter.mpr
        ⟨hc, (not_contains_eq_true_iff _ _).mpr
          ((contains_false_iff _ _).mp hcon)⟩, hca⟩
  have hpne : pend.Nonempty := by
    obtain ⟨c, hc, hcon⟩ := hne
    exact ⟨c.id, (hpend_mem c.id).mpr ⟨c, hc, rfl, hcon⟩⟩
  have hsucc : ∀ a ∈ pend, ∃ b ∈ pend, dependsOn r a b := by
    intro a ha
    obtain ⟨c, hc, hca, hcon⟩ := (hpend_mem a).mp ha
    have hds : depsSatisfied c acc = false := by
      rcases hstuck c hc with hx | hx
      · rw [hcon] at hx; cases hx
      · exact hx
    have hdep : ∃ d ∈ c.dependencies, acc.contains d = false := by
      by_contra hcontra
      push_neg at hcontra
      have : depsSatisfied c acc = true := by
        rw [depsSatisfied, List.all_eq_true]
        intro d hd
        have := hcontra d hd
        simpa using this
      rw [hds] at this
      cases this
    obtain ⟨d, hd, hdcon⟩ := hdep
    have hreg : idRegistered r d = true := by
      have h1 := List.all_eq_true.mp hwf c hc
      exact List.all_eq_true.mp h1 d hd
    obtain ⟨c', hc', hbeq⟩ := List.any_eq_true.mp hreg
    have hc'd : c'.id = d := by simpa using hbeq
    refine ⟨d, (hpend_mem d).mpr ⟨c', hc', hc'd, by rw [hc'd]; exact hdcon⟩, ?_⟩
    exact ⟨c, hc, hca, hd⟩
  obtain ⟨a, hcyc⟩ := cycle_of_all_successors (dependsOn r) pend hpne hsucc
  exact ⟨a, hcyc⟩

/-- Completeness of the resolver loop: when the dependency relation is
acyclic and well formed, the loop reaches a full order (with enough fuel). -/
theorem resolveAux_completes (r : List Component)
    (hwf : WellFormed r = true) (hacyc : ¬ HasCycle r) :
    ∀ (fuel : Nat) (acc : List ComponentId),
      (r.filter (fun c => !acc.contains c.id)).length ≤ fuel →
      ∃ order, resolveAux r fuel acc = Except.ok order := by
  intro fuel
  induction fuel with
  | zero =>
    intro acc hlen
    have hnil : r.filter (fun c => !acc.contains c.id) = [] :=
      List.length_eq_zero.mp (Nat.le_zero.mp hlen)
    have hall : allEmitted r acc = true := by
      rw [allEmitted, List.all_eq_true]
      intro c hc
      have := List.filter_eq_nil_iff.mp hnil c hc
      simpa using this
    exact ⟨acc, by simp [resolveAux, hall]⟩
  | succ fuel ih =>
    intro acc hlen
    by_cases hall : allEmitted r acc = true
    · exact ⟨acc, by simp [resolveAux, hall]⟩
    · have hne : ∃ c ∈ r, acc.contains c.id = false := by
        rw [allEmitted, List.all_eq_true] at hall
        push_neg at hall
        obtain ⟨c, hc, hcon⟩ := hall
        exact ⟨c, hc, by simpa using hcon⟩
      cases hnr : nextReady r acc with
      | none =>
        exfalso
        apply hacyc
        apply cycle_of_stuck r acc hwf hne
        intro c hc
        have hnone : r.find? (fun c => !acc.contains c.id && depsSatisfied c acc)
            = none := hnr
        have := List.find?_eq_none.mp hnone c hc
        by_cases hc1 : acc.contains c.id = true
        · exact Or.inl hc1
        · right
          by_cases hc2 : depsSatisfied c acc = true
          · exfalso
            apply this
            simp [Bool.eq_false_iff.mpr ?_, hc2]
            · simpa using hc1
          · simpa using hc2
      | some c =>
        have hfind : r.find? (fun c => !acc.contains c.id && depsSatisfied c acc)
            = some c := hnr
        have hcr : c ∈ r := List.mem_of_find?_eq_some hfind
        have hpred := List.find?_some hfind
        rw [Bool.and_eq_true] at hpred
        have hcon : acc.contains c.id = false := by simpa using hpred.1
        have hmeasure :
            (r.filter (fun c0 => !(acc ++ [c.id]).contains c0.id)).length ≤
              fuel := by
          have himp : ∀ c0 : Component,
              (!(acc ++ [c.id]).contains c0.id) = true →
              (!acc.contains c0.id) = true := by
            intro c0 h0
            rw [not_contains_eq_true_iff] at h0 ⊢
            exact fun hmm => h0 (List.mem_append_left _ hmm)
          have heqf : r.filter (fun c0 => !(acc ++ [c.id]).contains c0.id) =
              (r.filter (fun c0 => !acc.contains c0.id)).filter
                (fun c0 => !(acc ++ [c.id]).contains c0.id) := by
            rw [List.filter_filter]
            apply List.filter_congr
            intro c0 _
            cases h0 : (!(acc ++ [c.id]).contains c0.id) with
            | false => simp
            | true => simp only [h0, himp c0 h0, Bool.and_self]
          have hlt :
              ((r.filter (fun c0 => !acc.contains c0.id)).filter
                (fun c0 => !(acc ++ [c.id]).contains c0.id)).length <
              (r.filter (fun c0 => !acc.contains c0.id)).length := by
            rw [List.length_filter_lt_length_iff_exists]
            refine ⟨c, List.mem_filter.mpr
              ⟨hcr, (not_contains_eq_true_iff _ _).mpr
                ((contains_false_iff _ _).mp hcon)⟩, ?_⟩
            simp
          rw [heqf]
          omega
        obtain ⟨order, ho⟩ := ih (acc ++ [c.id]) hmeasure
        refine ⟨order, ?_⟩
        unfold resolveAux
        rw [if_neg hall, hnr]
        exact ho

/-- Completeness of `resolve_boot_order`: a well-formed, acyclic registry
always resolves to some order. -/
theorem resolve_boot_order_completes (r : List Component)
    (hwf : WellFormed r = true) (hacyc : ¬ HasCycle r) :
    ∃ order, resolve_boot_order r = Except.ok order := by
  obtain ⟨order, ho⟩ := resolveAux_completes r hwf hacyc r.length []
    (List.length_filter_le _ r)
  refine ⟨order, ?_⟩
  unfold resolve_boot_order
  have hf : r.find? (fun c => !c.dependencies.all (idRegistered r)) = none := by
    rw [List.find?_eq_none]
    intro c hc
    have := List.all_eq_true.mp hwf c hc
    simp [this]
  rw [hf]
  exact ho

/-- A dependency edge always points strictly backwards in a resolved
order. -/
theorem index_lt_of_dependsOn (r : List Component) (order : List ComponentId)
    (hnd : (r.map Component.id).Nodup)
    (hres : resolve_boot_order r = Except.ok order) :
    ∀ a b, dependsOn r a b →
      b ∈ order ∧ order.indexOf b < order.indexOf a := by
  obtain ⟨hmem, hnodup, htb, hfull⟩ := resolve_boot_order_ok_props r order hres
  have htopo := topoSorted_of_tieBreak hnd htb
  intro a b hdep
  obtain ⟨c, hc, hca, hb⟩ := hdep
  have haord : a ∈ order := hca ▸ hfull c hc
  obtain ⟨l1, l2, hsplit⟩ := List.append_of_mem haord
  have hbl1 : b ∈ l1 := htopo l1 a l2 hsplit c hc hca b hb
  have hanotl1 : a ∉ l1 := by
    intro hal1
    rw [hsplit, List.nodup_append] at hnodup
    exact hnodup.2.2 hal1 (List.mem_cons_self a l2)
  constructor
  · rw [hsplit]
    exact List.mem_append_left _ hbl1
  · rw [hsplit, List.indexOf_append_of_mem hbl1,
      List.indexOf_append_of_not_mem hanotl1, List.indexOf_cons_self]
    have := List.indexOf_lt_length.mpr hbl1
    omega

/-- A transitive dependency also points strictly backwards in a resolved
order. -/
theorem index_lt_of_transGen (r : List Component) (order : List ComponentId)
    (hnd : (r.map Component.id).Nodup)
    (hres : resolve_boot_order r = Except.ok order) :
    ∀ a b, Relation.TransGen (dependsOn r) a b →
      b ∈ order ∧ order.indexOf b < order.indexOf a := by
  intro a b h
  induction h with
  | single hstep => exact index_lt_of_dependsOn r order hnd hres _ _ hstep
  | tail h1 hstep ih =>
    have h2 := index_lt_of_dependsOn r order hnd hres _ _ hstep
    exact ⟨h2.1, lt_trans h2.2 ih.2⟩

/-- A registry that resolves successfully has no dependency cycle. -/
theorem no_cycle_of_resolve_ok (r : List Component) (order : List ComponentId)
    (hnd : (r.map Component.id).Nodup)
    (hres : resolve_boot_order r = Except.ok order) : ¬ HasCycle r := by
  rintro ⟨a, hcyc⟩
  have := (index_lt_of_transGen r order hnd hres a a hcyc).2
  omega

/-- The resolver loop fails only with `Component::CyclicDependency`. -/
theorem resolveAux_error_shape (r : List Component) :
    ∀ (fuel : Nat) (acc : List ComponentId) (e : FrameworkErrorKind),
      resolveAux r fuel acc = Except.error e →
      e = FrameworkErrorKind.component ComponentError.cyclicDependency := by
  intro fuel
  induction fuel with
  | zero =>
    intro acc e h
    unfold resolveAux at h
    by_cases hall : allEmitted r acc = true
    · rw [if_pos hall] at h; cases h
    · rw [if_neg hall] at h
      cases h
      rfl
  | succ fuel ih =>
    intro acc e h
    unfold resolveAux at h
    by_cases hall : allEmitted r acc = true
    · rw [if_pos hall] at h; cases h
    · rw [if_neg hall] at h
      cases hnr : nextReady r acc with
      | none => rw [hnr] at h; cases h; rfl
      | some c => rw [hnr] at h; exact ih _ e h

/-- The ranking argument for acyclicity: if every dependency edge strictly
decreases some measure, the dependency relation has no cycle. -/
theorem acyclic_of_rank (r : List Component) (m : ComponentId → Nat)
    (h : ∀ c ∈ r, ∀ d ∈ c.dependencies, m d < m c.id) : ¬ HasCycle r := by
  rintro ⟨a, hcyc⟩
  have hdec : ∀ x y, Relation.TransGen (dependsOn r) x y → m y < m x := by
    intro x y hxy
    induction hxy with
    | single hstep =>
      obtain ⟨c, hc, rfl, hd⟩ := hstep
      exact h c hc _ hd
    | tail h1 hstep ih =>
      obtain ⟨c, hc, hcx, hd⟩ := hstep
      have := h c hc _ hd
      rw [hcx] at this
      exact lt_trans this ih
  exact lt_irrefl _ (hdec a a hcyc)

/-! ## Theorems: dependency resolution (C1, C2) -/

/-- C1: for a registry (no duplicate ids, dependencies naming only
registered components) whose dependency relation is acyclic,
`resolve_boot_order` succeeds with an ordering that contains exactly the
registered ids, once each; every component appears after all of its
declared dependencies; ties among ready components are broken by
registration order; and the result is deterministic (the same success value
on every call with the same registry). -/
theorem c1_resolve_boot_order (r : List Component)
    (hnd : (r.map Component.id).Nodup)
    (hwf : WellFormed r = true)
    (hacyc : ¬ HasCycle r) :
    ∃ order, resolve_boot_order r = Except.ok order ∧
      (∀ c ∈ r, c.id ∈ order) ∧
      (∀ a ∈ order, ∃ c ∈ r, c.id = a) ∧
      order.Nodup ∧
      TopoSorted r order ∧
      RegOrderTieBreak r order ∧
      (∀ order', resolve_boot_order r = Except.ok order' → order' = order) := by
  obtain ⟨order, hres⟩ := resolve_boot_order_completes r hwf hacyc
  obtain ⟨hmem, hnodup, htb, hfull⟩ := resolve_boot_order_ok_props r order hres
  refine ⟨order, hres, hfull, hmem, hnodup,
    topoSorted_of_tieBreak hnd htb, htb, ?_⟩
  intro order' hres'
  rw [hres] at hres'
  exact (Except.ok.injEq _ _ |>.mp hres').symm

/-- The three-component example registry: `a` with no dependencies, `b` and
`c` each depending on `a`. -/
def regABC : List Component :=
  [⟨"a", []⟩, ⟨"b", ["a"]⟩, ⟨"c", ["a"]⟩]

/-- Witness for C1: the example registry resolves, to exactly
`["a", "b", "c"]`, and the order is topologically sorted. -/
theorem c1_resolve_boot_order_witness :
    resolve_boot_order regABC = Except.ok ["a", "b", "c"] ∧
      TopoSorted regABC ["a", "b", "c"] := by
  obtain ⟨order, hres, -, -, -, htopo, -, -⟩ :=
    c1_resolve_boot_order regABC (by decide) (by decide)
      (acyclic_of_rank regABC (fun a => if a = "a" then 0 else 1) (by decide))
  have hconc : resolve_boot_order regABC = Except.ok ["a", "b", "c"] := by
    rfl
  have : order = ["a", "b", "c"] := by
    rw [hres] at hconc
    exact Except.ok.injEq _ _ |>.mp hconc
  subst this
  exact ⟨hres, htopo⟩

/-- C2: a well-formed registry whose dependency relation contains a cycle
fails `resolve_boot_order` with `Component::CyclicDependency`; `boot`
propagates the error before invoking any `init` hook, so zero components
are booted and every component stays `Registered`. -/
theorem c2_cyclic_dependency (r : List Component)
    (initOk : ComponentId → Bool)
    (hnd : (r.map Component.id).Nodup)
    (hwf : WellFormed r = true)
    (hcyc : HasCycle r) :
    resolve_boot_order r =
        Except.error (FrameworkErrorKind.component
          ComponentError.cyclicDependency) ∧
      (boot r initOk).booted = [] ∧
      (∀ i, (boot r initOk).states i = ComponentState.registered) ∧
      (boot r initOk).result =
        Except.error (FrameworkErrorKind.component
          ComponentError.cyclicDependency) := by
  have hres : resolve_boot_order r =
      Except.error (FrameworkErrorKind.component
        ComponentError.cyclicDependency) := by
    cases hout : resolve_boot_order r with
    | ok order => exact absurd hcyc (no_cycle_of_resolve_ok r order hnd hout)
    | error e =>
      have he : e = FrameworkErrorKind.component
          ComponentError.cyclicDependency := by
        have hout' := hout
        unfold resolve_boot_order at hout'
        cases hf : r.find? (fun c => !c.dependencies.all (idRegistered r)) with
        | some c =>
          exfalso
          have hpred := List.find?_some hf
          have hcmem := List.mem_of_find?_eq_some hf
          have := List.all_eq_true.mp hwf c hcmem
          rw [this] at hpred
          cases hpred
        | none =>
          rw [hf] at hout'
          exact resolveAux_error_shape r r.length [] e hout'
      rw [he]
  have hboot : boot r initOk =
      ⟨initialStates, [],
        Except.error (FrameworkErrorKind.component
          ComponentError.cyclicDependency)⟩ := by
    unfold boot
    rw [hres]
  refine ⟨hres, ?_, ?_, ?_⟩
  · rw [hboot]
  · intro i
    rw [hboot]
    rfl
  · rw [hboot]

/-- The two-component cyclic registry: `a` depends on `b` and `b` on `a`. -/
def regCyc : List Component :=
  [⟨"a", ["b"]⟩, ⟨"b", ["a"]⟩]

/-- Witness for C2: the cyclic example registry fails with
`Component::CyclicDependency` and its components stay `Registered`. -/
theorem c2_cyclic_dependency_witness :
    resolve_boot_order regCyc =
        Except.error (FrameworkErrorKind.component
          ComponentError.cyclicDependency) ∧
      (boot regCyc (fun _ => true)).booted = [] ∧
      (boot regCyc (fun _ => true)).states "a" =
        ComponentState.registered := by
  have e1 : dependsOn regCyc "a" "b" := ⟨⟨"a", ["b"]⟩, by decide, rfl, by decide⟩
  have e2 : dependsOn regCyc "b" "a" := ⟨⟨"b", ["a"]⟩, by decide, rfl, by decide⟩
  have hcyc : HasCycle regCyc :=
    ⟨"a", Relation.TransGen.head e1 (Relation.TransGen.single e2)⟩
  obtain ⟨h1, h2, h3, -⟩ :=
    c2_cyclic_dependency regCyc (fun _ => true) (by decide) (by decide) hcyc
  exact ⟨h1, h2, h3 "a"⟩

/-! ## Theorems: partial boot failure (C3) -/

/-- Apply the `Ready` transition for each id in a list, in order. -/
def applyReady (st : ComponentId → ComponentState) (l : List ComponentId) :
    ComponentId → ComponentState :=
  l.foldl (fun s a => updateState s a ComponentState.ready) st

/-- Ids not in the list keep their previous state. -/
theorem applyReady_not_mem (l : List ComponentId)
    (st : ComponentId → ComponentState) (a : ComponentId) (h : a ∉ l) :
    applyReady st l a = st a := by
  induction l generalizing st with
  | nil => rfl
  | cons b rest ih =>
    have hne : a ≠ b := fun hab => h (hab ▸ List.mem_cons_self b rest)
    have hnr : a ∉ rest := fun hr => h (List.mem_cons_of_mem b hr)
    show applyReady (updateState st b ComponentState.ready) rest a = st a
    rw [ih _ hnr]
    simp [updateState, hne]

/-- Ids in the list end up `Ready`. -/
theorem applyReady_mem (l : List ComponentId)
    (st : ComponentId → ComponentState) (a : ComponentId) (h : a ∈ l) :
    applyReady st l a = ComponentState.ready := by
  induction l generalizing st with
  | nil => cases h
  | cons b rest ih =>
    by_cases hr : a ∈ rest
    · exact ih _ hr
    · have hab : a = b := by
        rcases List.mem_cons.mp h with hab | hr'
        · exact hab
        · exact absurd hr' hr
      show applyReady (updateState st b ComponentState.ready) rest a =
        ComponentState.ready
      rw [applyReady_not_mem rest _ a hr]
      simp [updateState, hab]

/-- Running boot over an order whose prefix succeeds and whose next
component fails: the prefix becomes `Ready`, the failing component becomes
`Failed`, the remainder is never touched, and boot reports
`Component::InitFailed` naming the failing component. -/
theorem bootComponents_fail (initOk : ComponentId → Bool) :
    ∀ (l1 : List ComponentId) (cid : ComponentId) (l2 : List ComponentId)
      (st : ComponentId → ComponentState),
      (∀ a ∈ l1, initOk a = true) → initOk cid = false →
      bootComponents initOk (l1 ++ cid :: l2) st =
        ⟨updateState (applyReady st l1) cid ComponentState.failed, l1,
          Except.error (FrameworkErrorKind.component
            (ComponentError.initFailed cid))⟩ := by
  intro l1
  induction l1 with
  | nil =>
    intro cid l2 st _ hf
    show bootComponents initOk (cid :: l2) st = _
    simp [bootComponents, hf, applyReady]
  | cons b rest ih =>
    intro cid l2 st h1 hf
    have hb : initOk b = true := h1 b (List.mem_cons_self b rest)
    have hrest := ih cid l2 (updateState st b ComponentState.ready)
      (fun a ha => h1 a (List.mem_cons_of_mem b ha)) hf
    show bootComponents initOk (b :: (rest ++ cid :: l2)) st = _
    simp only [bootComponents, hb, if_true, hrest]
    rfl

/-- C3: if during boot every component before `cid` in the resolved order
initializes successfully and `cid`'s init hook fails, then `cid` ends up
`Failed`, every already-processed component stays `Ready`, every component
not yet started — in particular every component transitively depending on
`cid` — stays `Registered`, and boot reports `Component::InitFailed`
naming `cid`.  No rollback of the `Ready` prefix occurs. -/
theorem c3_init_failure (r : List Component)
    (order l1 l2 : List ComponentId) (cid : ComponentId)
    (initOk : ComponentId → Bool)
    (hnd : (r.map Component.id).Nodup)
    (hres : resolve_boot_order r = Except.ok order)
    (hsplit : order = l1 ++ cid :: l2)
    (hok1 : ∀ a ∈ l1, initOk a = true) (hfail : initOk cid = false) :
    (boot r initOk).states cid = ComponentState.failed ∧
      (∀ a ∈ l1, (boot r initOk).states a = ComponentState.ready) ∧
      (boot r initOk).booted = l1 ∧
      (∀ a, a ∉ l1 → a ≠ cid →
        (boot r initOk).states a = ComponentState.registered) ∧
      (∀ d, Relation.TransGen (dependsOn r) d cid →
        (boot r initOk).states d = ComponentState.registered) ∧
      (boot r initOk).result =
        Except.error (FrameworkErrorKind.component
          (ComponentError.initFailed cid)) := by
  obtain ⟨-, hnodup, -, -⟩ := resolve_boot_order_ok_props r order hres
  have hcidl1 : cid ∉ l1 := by
    intro hmm
    rw [hsplit, List.nodup_append] at hnodup
    exact hnodup.2.2 hmm (List.mem_cons_self cid l2)
  have hboot : boot r initOk =
      ⟨updateState (applyReady initialStates l1) cid ComponentState.failed, l1,
        Except.error (FrameworkErrorKind.component
          (ComponentError.initFailed cid))⟩ := by
    unfold boot
    rw [hres, hsplit]
    exact bootComponents_fail initOk l1 cid l2 initialStates hok1 hfail
  have hst_notmem : ∀ a, a ∉ l1 → a ≠ cid →
      (boot r initOk).states a = ComponentState.registered := by
    intro a ha hac
    rw [hboot]
    show updateState (applyReady initialStates l1) cid ComponentState.failed a
      = ComponentState.registered
    rw [updateState, if_neg hac, applyReady_not_mem l1 _ a ha]
    rfl
  refine ⟨?_, ?_, ?_, hst_notmem, ?_, ?_⟩
  · rw [hboot]
    show updateState (applyReady initialStates l1) cid ComponentState.failed cid
      = ComponentState.failed
    rw [updateState, if_pos rfl]
  · intro a ha
    have hac : a ≠ cid := fun hmm => hcidl1 (hmm ▸ ha)
    rw [hboot]
    show updateState (applyReady initialStates l1) cid ComponentState.failed a
      = ComponentState.ready
    rw [updateState, if_neg hac, applyReady_mem l1 _ a ha]
  · rw [hboot]
  · intro d hdep
    obtain ⟨hcidord, hidx⟩ := index_lt_of_transGen r order hnd hres d cid hdep
    have hdc : d ≠ cid := by
      intro hmm
      rw [hmm] at hidx
      omega
    have hdl1 : d ∉ l1 := by
      intro hmm
      have hidxcid : order.indexOf cid = l1.length := by
        rw [hsplit, List.indexOf_append_of_not_mem hcidl1,
          List.indexOf_cons_self]
        omega
      have hidxd : order.indexOf d < l1.length := by
        rw [hsplit, List.indexOf_append_of_mem hmm]
        exact List.indexOf_lt_length.mpr hmm
      omega
    exact hst_notmem d hdl1 hdc
  · rw [hboot]

/-- The oracle that fails exactly component `a`. -/
def failOnlyA : ComponentId → Bool :=
  fun a => !(a == "a")

/-- Witness for C3 on the example registry with a failing root component:
`a` is `Failed`, its dependents `b` and `c` stay `Registered`, nothing is
booted, and the error names `a`. -/
theorem c3_init_failure_witness :
    (boot regABC failOnlyA).states "a" = ComponentState.failed ∧
      (boot regABC failOnlyA).booted = [] ∧
      (boot regABC failOnlyA).states "b" = ComponentState.registered ∧
      (boot regABC failOnlyA).result =
        Except.error (FrameworkErrorKind.component
          (ComponentError.initFailed "a")) := by
  obtain ⟨h1, -, h3, -, h5, h6⟩ :=
    c3_init_failure regABC ["a", "b", "c"] [] ["b", "c"] "a" failOnlyA
      (by decide) (by rfl) rfl (by simp) (by rfl)
  have eb : dependsOn regABC "b" "a" := ⟨⟨"b", ["a"]⟩, by decide, rfl, by decide⟩
  exact ⟨h1, h3, h5 "b" (Relation.TransGen.single eb), h6⟩

/-! ## The component lifecycle state machine (C9) -/

/-- Modelled from the spec: the per-component transition relation
`Registered → Initializing → Ready → ShuttingDown → Stopped`, with `Failed`
reachable from `Initializing` or `ShuttingDown`. -/
inductive LifecycleStep : ComponentState → ComponentState → Prop where
  | initStart : LifecycleStep ComponentState.registered ComponentState.initializing
  | initOk : LifecycleStep ComponentState.initializing ComponentState.ready
  | initFail : LifecycleStep ComponentState.initializing ComponentState.failed
  | shutStart : LifecycleStep ComponentState.ready ComponentState.shuttingDown
  | shutOk : LifecycleStep ComponentState.shuttingDown ComponentState.stopped
  | shutFail : LifecycleStep ComponentState.shuttingDown ComponentState.failed

/-- A component's dynamic record during a run: its current phase, plus a
history bit recording whether it has ever been `Ready`. -/
structure LcState where
  phase : ComponentState
  wasReady : Bool
deriving DecidableEq, Repr

/-- Pointwise update of a lifecycle-state assignment. -/
def setComp (st : ComponentId → LcState) (i : ComponentId) (v : LcState) :
    ComponentId → LcState :=
  fun j => if j = i then v else st j

/-- Initially every component is `Registered` and has never been ready. -/
def lcInit : ComponentId → LcState :=
  fun _ => ⟨ComponentState.registered, false⟩

/-- Modelled from the spec: the registry's lifecycle moves.  `init` is
started only once every declared dependency is `Ready` (the registry boots
in topological order); finishing `init` marks the component `Ready` and
records the history bit; failures absorb into `Failed`. -/
inductive SysStep (r : List Component) (st : ComponentId → LcState) :
    (ComponentId → LcState) → Prop where
  | initStart (c : Component) (hc : c ∈ r)
      (h : (st c.id).phase = ComponentState.registered)
      (hdeps : ∀ d ∈ c.dependencies, (st d).phase = ComponentState.ready) :
      SysStep r st
        (setComp st c.id ⟨ComponentState.initializing, (st c.id).wasReady⟩)
  | initOk (c : Component) (hc : c ∈ r)
      (h : (st c.id).phase = ComponentState.initializing) :
      SysStep r st (setComp st c.id ⟨ComponentState.ready, true⟩)
  | initFail (c : Component) (hc : c ∈ r)
      (h : (st c.id).phase = ComponentState.initializing) :
      SysStep r st
        (setComp st c.id ⟨ComponentState.failed, (st c.id).wasReady⟩)
  | shutStart (c : Component) (hc : c ∈ r)
      (h : (st c.id).phase = ComponentState.ready) :
      SysStep r st
        (setComp st c.id ⟨ComponentState.shuttingDown, (st c.id).wasReady⟩)
  | shutOk (c : Component) (hc : c ∈ r)
      (h : (st c.id).phase = ComponentState.shuttingDown) :
      SysStep r st
        (setComp st c.id ⟨ComponentState.stopped, (st c.id).wasReady⟩)
  | shutFail (c : Component) (hc : c ∈ r)
      (h : (st c.id).phase = ComponentState.shuttingDown) :
      SysStep r st
        (setComp st c.id ⟨ComponentState.failed, (st c.id).wasReady⟩)

/-- States of the lifecycle machine reachable from the all-`Registered`
initial state. -/
inductive SysReachable (r : List Component) : (ComponentId → LcState) → Prop where
  | init : SysReachable r lcInit
  | step {st st' : ComponentId → LcState} :
      SysReachable r st → SysStep r st st' → SysReachable r st'

/-- The inductive invariant of the lifecycle machine: a component that is
`Initializing` or `Ready` has all of its dependencies marked as having
reached `Ready`, and any component whose phase is `Ready`, `ShuttingDown`
or `Stopped` carries the history bit. -/
def LcInv (r : List Component) (st : ComponentId → LcState) : Prop :=
  (∀ c ∈ r, ((st c.id).phase = ComponentState.initializing ∨
      (st c.id).phase = ComponentState.ready) →
    ∀ d ∈ c.dependencies, (st d).wasReady = true) ∧
  (∀ i, ((st i).phase = ComponentState.ready ∨
      (st i).phase = ComponentState.shuttingDown ∨
      (st i).phase = ComponentState.stopped) → (st i).wasReady = true)

/-- A pointwise update whose history bit does not decrease preserves a set
history bit. -/
theorem setComp_wasReady_mono (st : ComponentId → LcState) (i j : ComponentId)
    (v : LcState) (hv : v.wasReady = (st j).wasReady ∨ v.wasReady = true)
    (hw : (st i).wasReady = true) : (setComp st j v i).wasReady = true := by
  unfold setComp
  by_cases hij : i = j
  · subst hij
    rcases hv with hv | hv
    · simp [hv, hw]
    · simp [hv]
  · simp [hij, hw]

/-- No lifecycle move lowers a history bit. -/
theorem sysStep_wasReady_mono {r : List Component}
    {st st' : ComponentId → LcState} (h : SysStep r st st') (i : ComponentId)
    (hw : (st i).wasReady = true) : (st' i).wasReady = true := by
  cases h with
  | initStart c hc hp hdeps => exact setComp_wasReady_mono st i c.id _ (Or.inl rfl) hw
  | initOk c hc hp => exact setComp_wasReady_mono st i c.id _ (Or.inr rfl) hw
  | initFail c hc hp => exact setComp_wasReady_mono st i c.id _ (Or.inl rfl) hw
  | shutStart c hc hp => exact setComp_wasReady_mono st i c.id _ (Or.inl rfl) hw
  | shutOk c hc hp => exact setComp_wasReady_mono st i c.id _ (Or.inl rfl) hw
  | shutFail c hc hp => exact setComp_wasReady_mono st i c.id _ (Or.inl rfl) hw

/-- The invariant holds initially. -/
theorem lcInv_init (r : List Component) : LcInv r lcInit := by
  constructor
  · intro c _ h
    rcases h with h | h <;> simp [lcInit] at h
  · intro i h
    rcases h with h | h | h <;> simp [lcInit] at h

/-- The invariant is preserved by every lifecycle move. -/
theorem setComp_same (st : ComponentId → LcState) (i : ComponentId)
    (v : LcState) : setComp st i v i = v := by
  simp [setComp]

theorem setComp_other (st : ComponentId → LcState) (i j : ComponentId)
    (v : LcState) (h : j ≠ i) : setComp st i v j = st j := by
  simp [setComp, h]

/-- The invariant is preserved by every lifecycle move. -/
theorem lcInv_step {r : List Component} {st st' : ComponentId → LcState}
    (hnd : (r.map Component.id).Nodup)
    (hinv : LcInv r st) (h : SysStep r st st') : LcInv r st' := by
  obtain ⟨h1, h2⟩ := hinv
  cases h with
  | initStart c hc hp hdeps =>
    refine ⟨?_, ?_⟩
    · intro c' hc' hph d hd
      apply setComp_wasReady_mono st d c.id
        ⟨ComponentState.initializing, (st c.id).wasReady⟩ (Or.inl rfl)
      by_cases hcc : c'.id = c.id
      · have hceq : c' = c := eq_of_id_eq hnd hc' hc hcc
        subst hceq
        exact h2 d (Or.inl (hdeps d hd))
      · rw [setComp_other st c.id c'.id _ hcc] at hph
        exact h1 c' hc' hph d hd
    · intro i hph
      by_cases hi : i = c.id
      · rw [hi, setComp_same] at hph
        simp at hph
      · rw [setComp_other st c.id i _ hi] at hph
        rw [setComp_other st c.id i _ hi]
        exact h2 i hph
  | initOk c hc hp =>
    refine ⟨?_, ?_⟩
    · intro c' hc' hph d hd
      apply setComp_wasReady_mono st d c.id
        ⟨ComponentState.ready, true⟩ (Or.inr rfl)
      by_cases hcc : c'.id = c.id
      · have hceq : c' = c := eq_of_id_eq hnd hc' hc hcc
        subst hceq
        exact h1 c' hc' (Or.inl hp) d hd
      · rw [setComp_other st c.id c'.id _ hcc] at hph
        exact h1 c' hc' hph d hd
    · intro i hph
      by_cases hi : i = c.id
      · rw [hi, setComp_same]
      · rw [setComp_other st c.id i _ hi] at hph
        rw [setComp_other st c.id i _ hi]
        exact h2 i hph
  | initFail c hc hp =>
    refine ⟨?_, ?_⟩
    · intro c' hc' hph d hd
      apply setComp_wasReady_mono st d c.id
        ⟨ComponentState.failed, (st c.id).wasReady⟩ (Or.inl rfl)
      by_cases hcc : c'.id = c.id
      · rw [hcc, setComp_same] at hph
        simp at hph
      · rw [setComp_other st c.id c'.id _ hcc] at hph
        exact h1 c' hc' hph d hd
    · intro i hph
      by_cases hi : i = c.id
      · rw [hi, setComp_same] at hph
        simp at hph
      · rw [setComp_other st c.id i _ hi] at hph
        rw [setComp_other st c.id i _ hi]
        exact h2 i hph
  | shutStart c hc hp =>
    refine ⟨?_, ?_⟩
    · intro c' hc' hph d hd
      apply setComp_wasReady_mono st d c.id
        ⟨ComponentState.shuttingDown, (st c.id).wasReady⟩ (Or.inl rfl)
      by_cases hcc : c'.id = c.id
      · rw [hcc, setComp_same] at hph
        simp at hph
      · rw [setComp_other st c.id c'.id _ hcc] at hph
        exact h1 c' hc' hph d hd
    · intro i hph
      by_cases hi : i = c.id
      · rw [hi, setComp_same]
        exact h2 c.id (Or.inl hp)
      · rw [setComp_other st c.id i _ hi] at hph
        rw [setComp_other st c.id i _ hi]
        exact h2 i hph
  | shutOk c hc hp =>
    refine ⟨?_, ?_⟩
    · intro c' hc' hph d hd
      apply setComp_wasReady_mono st d c.id
        ⟨ComponentState.stopped, (st c.id).wasReady⟩ (Or.inl rfl)
      by_cases hcc : c'.id = c.id
      · rw [hcc, setComp_same] at hph
        simp at hph
      · rw [setComp_other st c.id c'.id _ hcc] at hph
        exact h1 c' hc' hph d hd
    · intro i hph
      by_cases hi : i = c.id
      · rw [hi, setComp_same]
        exact h2 c.id (Or.inr (Or.inl hp))
      · rw [setComp_other st c.id i _ hi] at hph
        rw [setComp_other st c.id i _ hi]
        exact h2 i hph
  | shutFail c hc hp =>
    refine ⟨?_, ?_⟩
    · intro c' hc' hph d hd
      apply setComp_wasReady_mono st d c.id
        ⟨ComponentState.failed, (st c.id).wasReady⟩ (Or.inl rfl)
      by_cases hcc : c'.id = c.id
      · rw [hcc, setComp_same] at hph
        simp at hph
      · rw [setComp_other st c.id c'.id _ hcc] at hph
        exact h1 c' hc' hph d hd
    · intro i hph
      by_cases hi : i = c.id
      · rw [hi, setComp_same] at hph
        simp at hph
      · rw [setComp_other st c.id i _ hi] at hph
        rw [setComp_other st c.id i _ hi]
        exact h2 i hph

/-- The invariant holds in every reachable state. -/
theorem lcInv_reachable {r : List Component} {st : ComponentId → LcState}
    (hnd : (r.map Component.id).Nodup) (h : SysReachable r st) :
    LcInv r st := by
  induction h with
  | init => exact lcInv_init r
  | step ha hs ih => exact lcInv_step hnd ih hs

/-- C9: in every reachable state of the lifecycle machine, a component is
`Ready` only if each of its declared dependencies has previously reached
`Ready` (history bit set); every move the registry makes on a component is
a `LifecycleStep`; and the step relation follows
`Registered → Initializing → Ready → ShuttingDown → Stopped` exactly, with
`Failed` reachable only from `Initializing` or `ShuttingDown`, with
`Stopped` and `Failed` terminal, and with no skipped states. -/
theorem c9_lifecycle (r : List Component) (st : ComponentId → LcState)
    (hnd : (r.map Component.id).Nodup) (hreach : SysReachable r st) :
    (∀ c ∈ r, (st c.id).phase = ComponentState.ready →
      ∀ d ∈ c.dependencies, (st d).wasReady = true) ∧
    (∀ s s' : ComponentId → LcState, SysStep r s s' →
      ∀ i, s i ≠ s' i → LifecycleStep (s i).phase (s' i).phase) ∧
    (∀ ph, LifecycleStep ComponentState.registered ph ↔
      ph = ComponentState.initializing) ∧
    (∀ ph, LifecycleStep ComponentState.initializing ph ↔
      (ph = ComponentState.ready ∨ ph = ComponentState.failed)) ∧
    (∀ ph, LifecycleStep ComponentState.ready ph ↔
      ph = ComponentState.shuttingDown) ∧
    (∀ ph, LifecycleStep ComponentState.shuttingDown ph ↔
      (ph = ComponentState.stopped ∨ ph = ComponentState.failed)) ∧
    (∀ ph, ¬ LifecycleStep ComponentState.stopped ph) ∧
    (∀ ph, ¬ LifecycleStep ComponentState.failed ph) ∧
    (∀ ph, LifecycleStep ph ComponentState.failed →
      ph = ComponentState.initializing ∨ ph = ComponentState.shuttingDown) := by
  obtain ⟨h1, -⟩ := lcInv_reachable hnd hreach
  refine ⟨fun c hc hph => h1 c hc (Or.inr hph), ?_, ?_, ?_, ?_, ?_, ?_, ?_, ?_⟩
  · intro s s' hstep i hne
    cases hstep with
    | initStart c hc hp hdeps =>
      by_cases hi : i = c.id
      · rw [hi, setComp_same, hp]
        exact LifecycleStep.initStart
      · rw [setComp_other s c.id i _ hi] at hne
        exact absurd rfl hne
    | initOk c hc hp =>
      by_cases hi : i = c.id
      · rw [hi, setComp_same, hp]
        exact LifecycleStep.initOk
      · rw [setComp_other s c.id i _ hi] at hne
        exact absurd rfl hne
    | initFail c hc hp =>
      by_cases hi : i = c.id
      · rw [hi, setComp_same, hp]
        exact LifecycleStep.initFail
      · rw [setComp_other s c.id i _ hi] at hne
        exact absurd rfl hne
    | shutStart c hc hp =>
      by_cases hi : i = c.id
      · rw [hi, setComp_same, hp]
        exact LifecycleStep.shutStart
      · rw [setComp_other s c.id i _ hi] at hne
        exact absurd rfl hne
    | shutOk c hc hp =>
      by_cases hi : i = c.id
      · rw [hi, setComp_same, hp]
        exact LifecycleStep.shutOk
      · rw [setComp_other s c.id i _ hi] at hne
        exact absurd rfl hne
    | shutFail c hc hp =>
      by_cases hi : i = c.id
      · rw [hi, setComp_same, hp]
        exact LifecycleStep.shutFail
      · rw [setComp_other s c.id i _ hi] at hne
        exact absurd rfl hne
  · intro ph
    constructor
    · intro h
      cases h
      rfl
    · intro h
      rw [h]
      exact LifecycleStep.initStart
  · intro ph
    constructor
    · intro h
      cases h with
      | initOk => exact Or.inl rfl
      | initFail => exact Or.inr rfl
    · intro h
      rcases h with h | h <;> rw [h]
      · exact LifecycleStep.initOk
      · exact LifecycleStep.initFail
  · intro ph
    constructor
    · intro h
      cases h
      rfl
    · intro h
      rw [h]
      exact LifecycleStep.shutStart
  · intro ph
    constructor
    · intro h
      cases h with
      | shutOk => exact Or.inl rfl
      | shutFail => exact Or.inr rfl
    · intro h
      rcases h with h | h <;> rw [h]
      · exact LifecycleStep.shutOk
      · exact LifecycleStep.shutFail
  · intro ph h
    cases h
  · intro ph h
    cases h
  · intro ph h
    cases h
    · exact Or.inl rfl
    · exact Or.inr rfl

/-- Witness for C9: the hypotheses are satisfiable (example registry,
initial state), and `Stopped` is terminal. -/
theorem c9_lifecycle_witness :
    ¬ LifecycleStep ComponentState.stopped ComponentState.ready :=
  (c9_lifecycle regABC lcInit (by decide)
    SysReachable.init).2.2.2.2.2.2.1 ComponentState.ready

/-! ## The reader/writer interleaving model of the configuration cell (C6)

Modelled from the source crate docs ("a [RwLock] on a [lazy_static]") and
the spec's concurrency section: a writer replaces a two-field configuration
value field by field while holding the writer lock; readers are admitted
only while no writer holds the lock. -/

/-- The writer's program counter through one in-flight `set`. -/
inductive WriterPc where
  | idle
  | locked
  | wroteFst
  | wroteBoth
  | finished
deriving DecidableEq, Repr

/-- A snapshot of the cell during one in-flight `set`: the stored two-field
value, whether the writer lock is held, and where the writer is. -/
structure RwState (α : Type) where
  value : α × α
  writerLock : Bool
  pc : WriterPc
deriving DecidableEq, Repr

/-- Before the `set` begins: the old value is stored and the lock is
free. -/
def rwInit (old : α × α) : RwState α :=
  ⟨old, false, WriterPc.idle⟩

/-- The writer's moves while performing `set(newv)`: acquire the writer
lock (only when free), write the first field, write the second field,
release. -/
inductive RwStep (newv : α × α) : RwState α → RwState α → Prop where
  | acquire {s : RwState α} (h : s.pc = WriterPc.idle)
      (hl : s.writerLock = false) :
      RwStep newv s ⟨s.value, true, WriterPc.locked⟩
  | writeFst {s : RwState α} (h : s.pc = WriterPc.locked) :
      RwStep newv s ⟨(newv.1, s.value.2), true, WriterPc.wroteFst⟩
  | writeSnd {s : RwState α} (h : s.pc = WriterPc.wroteFst) :
      RwStep newv s ⟨(s.value.1, newv.2), true, WriterPc.wroteBoth⟩
  | release {s : RwState α} (h : s.pc = WriterPc.wroteBoth) :
      RwStep newv s ⟨s.value, false, WriterPc.finished⟩

/-- States reachable while one `set(newv)` is in flight over old value
`old`. -/
inductive RwReachable (old newv : α × α) : RwState α → Prop where
  | init : RwReachable old newv (rwInit old)
  | step {s s' : RwState α} :
      RwReachable old newv s → RwStep newv s s' → RwReachable old newv s'

/-- A reader's `get`: admitted only while no writer holds the lock (the
RwLock read guard); it observes the stored value whole. -/
def rwGet (s : RwState α) : Option (α × α) :=
  if s.writerLock then none else some s.value

/-- The inductive invariant of the in-flight `set`: the stored value and
lock are determined by the writer's program counter, and the value is
mixed only while the lock is held. -/
theorem rwInv {α : Type} (old newv : α × α) (s : RwState α)
    (h : RwReachable old newv s) :
    (s.pc = WriterPc.idle → s.value = old ∧ s.writerLock = false) ∧
    (s.pc = WriterPc.locked → s.value = old ∧ s.writerLock = true) ∧
    (s.pc = WriterPc.wroteFst →
      s.value = (newv.1, old.2) ∧ s.writerLock = true) ∧
    (s.pc = WriterPc.wroteBoth → s.value = newv ∧ s.writerLock = true) ∧
    (s.pc = WriterPc.finished → s.value = newv ∧ s.writerLock = false) := by
  induction h with
  | init =>
    refine ⟨fun _ => ⟨rfl, rfl⟩, ?_, ?_, ?_, ?_⟩ <;>
      · intro hpc
        cases hpc
  | step hr hs ih =>
    obtain ⟨i1, i2, i3, i4, i5⟩ := ih
    cases hs with
    | acquire hpc hl =>
      obtain ⟨hv, -⟩ := i1 hpc
      refine ⟨?_, fun _ => ⟨hv, rfl⟩, ?_, ?_, ?_⟩ <;>
        · intro h'
          cases h'
    | writeFst hpc =>
      obtain ⟨hv, -⟩ := i2 hpc
      refine ⟨?_, ?_, fun _ => ⟨by rw [hv], rfl⟩, ?_, ?_⟩ <;>
        · intro h'
          cases h'
    | writeSnd hpc =>
      obtain ⟨hv, -⟩ := i3 hpc
      refine ⟨?_, ?_, ?_, fun _ => ⟨by rw [hv], rfl⟩, ?_⟩ <;>
        · intro h'
          cases h'
    | release hpc =>
      obtain ⟨hv, -⟩ := i4 hpc
      refine ⟨?_, ?_, ?_, ?_, fun _ => ⟨hv, rfl⟩⟩ <;>
        · intro h'
          cases h'

/-- Any completed read during an in-flight `set` observes exactly the old
or exactly the new value. -/
theorem rwGet_old_or_new {α : Type} (old newv : α × α) (s : RwState α)
    (h : RwReachable old newv s) (v : α × α) (hget : rwGet s = some v) :
    v = old ∨ v = newv := by
  obtain ⟨i1, i2, i3, i4, i5⟩ := rwInv old newv s h
  have hlock : s.writerLock = false := by
    by_contra hcon
    rw [Bool.not_eq_false] at hcon
    rw [rwGet, if_pos hcon] at hget
    cases hget
  have hval : s.value = v := by
    rw [rwGet, if_neg (by rw [hlock]; exact Bool.false_ne_true)] at hget
    exact Option.some.injEq _ _ |>.mp hget
  cases hpc : s.pc with
  | idle => exact Or.inl (by rw [← hval, (i1 hpc).1])
  | locked =>
    rw [(i2 hpc).2] at hlock
    cases hlock
  | wroteFst =>
    rw [(i3 hpc).2] at hlock
    cases hlock
  | wroteBoth =>
    rw [(i4 hpc).2] at hlock
    cases hlock
  | finished => exact Or.inr (by rw [← hval, (i5 hpc).1])

/-- C6: while one `set` is in flight, every completed `get` — in
particular each of any number of concurrently issued `get`s — returns
either exactly the old value or exactly the new value, never a mixture of
fields from both; mid-write states are protected by the writer lock, and a
writer can acquire the lock only when no writer holds it. -/
theorem c6_rwlock_no_mixture {α : Type} (old newv : α × α) (s : RwState α)
    (hreach : RwReachable old newv s) :
    (∀ v, rwGet s = some v → v = old ∨ v = newv) ∧
    (s.writerLock = false → s.value = old ∨ s.value = newv) ∧
    ((s.pc = WriterPc.locked ∨ s.pc = WriterPc.wroteFst ∨
        s.pc = WriterPc.wroteBoth) → s.writerLock = true) ∧
    (∀ s' : RwState α, RwStep newv s s' → s'.pc = WriterPc.locked →
      s.writerLock = false) ∧
    (∀ reads : List (RwState α),
      (∀ t ∈ reads, RwReachable old newv t) →
      ∀ t ∈ reads, ∀ v, rwGet t = some v → v = old ∨ v = newv) := by
  obtain ⟨i1, i2, i3, i4, i5⟩ := rwInv old newv s hreach
  refine ⟨fun v => rwGet_old_or_new old newv s hreach v, ?_, ?_, ?_, ?_⟩
  · intro hlock
    cases hpc : s.pc with
    | idle => exact Or.inl (i1 hpc).1
    | locked => rw [(i2 hpc).2] at hlock; cases hlock
    | wroteFst => rw [(i3 hpc).2] at hlock; cases hlock
    | wroteBoth => rw [(i4 hpc).2] at hlock; cases hlock
    | finished => exact Or.inr (i5 hpc).1
  · intro hpc
    rcases hpc with hpc | hpc | hpc
    · exact (i2 hpc).2
    · exact (i3 hpc).2
    · exact (i4 hpc).2
  · intro s' hstep hpc'
    cases hstep with
    | acquire h hl => exact hl
    | writeFst h => cases hpc'
    | writeSnd h => cases hpc'
    | release h => cases hpc'
  · intro reads hr t ht v hget
    exact rwGet_old_or_new old newv t (hr t ht) v hget

/-- Witness for C6: the initial state (lock free) observes the old value,
at concrete values. -/
theorem c6_rwlock_no_mixture_witness :
    (rwInit ((0, 1) : Nat × Nat)).value = (0, 1) ∨
      (rwInit ((0, 1) : Nat × Nat)).value = (2, 3) :=
  (c6_rwlock_no_mixture ((0, 1) : Nat × Nat) (2, 3) (rwInit (0, 1))
    RwReachable.init).2.1 rfl

/-! ## Theorems: per-Application configuration cells (C10) -/

/-- Counterexample to C10: with the process-wide `lazy_static` cell
documented by the crate root, a `set` issued through one Application handle
*is* observed by a `get` through a different Application handle — the second
Application's view does not stay unchanged. -/
theorem c10_counterexample :
    applicationGet
        (applicationSet (ProcessConfig.mk (none : Option Nat)) ⟨1⟩ 42) ⟨2⟩ ≠
      applicationGet (ProcessConfig.mk (none : Option Nat)) ⟨2⟩ := by
  simp [applicationGet, applicationSet, GlobalConfig.get, GlobalConfig.set]

/-- C10 (amended): the configuration cell is a process-wide global shared
by every Application handle in the process: after a `set(v)` through any
handle, a `get()` through any handle (in particular a different
Application's) returns `v`. -/
theorem c10_process_wide_cell (p : ProcessConfig α)
    (app1 app2 : ApplicationHandle) (v : α) :
    applicationGet (applicationSet p app1 v) app2 = Except.ok v := by
  rfl

end Abscissa
